import Mathlib

/-!
Verification of the RPub publication pipeline.

This file gives a shallow embedding of the core of the RPub repository
(`src/util/content_extractors.rs`, `src/image_inmem.rs`, `src/epub_gen.rs`)
and proves (or refutes) the frozen claims about it.

Strings are modelled as `List Char` (`Str`).  External collaborators
(the HTTP client, the `image` codec, the `url` parser, the YAML parser,
the `dom_query` DOM library, the zip serializer and the clock) are
modelled as explicit oracle parameters; everything the repository itself
computes is translated directly from the Rust source.

The file is organised as definitions first, then theorems.
-/

set_option linter.unusedVariables false
set_option linter.unnecessarySimpa false
set_option maxRecDepth 8000

abbrev Str := List Char

/-- Character data of a Lean string literal, used to write concrete
`Str` values. -/
def chars (s : String) : Str := s.data

/-! ### Lexicographic byte order on strings

`Vec::sort` in `process_images` sorts the discovered image references
with Rust's `Ord` for `String`, i.e. lexicographic order on the UTF-8
bytes, which coincides with lexicographic order on unicode scalar
values. -/

/-- Lexicographic order on `Str` by scalar value, the model of Rust's
`Ord` for `String`. -/
def lexLe : Str → Str → Bool
  | [], _ => true
  | _ :: _, [] => false
  | a :: as_, b :: bs =>
    if a < b then true
    else if b < a then false
    else lexLe as_ bs

/-- The `Prop`-valued form of `lexLe`, used with `List.insertionSort`. -/
def LexLe (a b : Str) : Prop := lexLe a b = true

instance : DecidableRel LexLe := fun a b => inferInstanceAs (Decidable (_ = true))

/-- Model of `Vec::dedup` (removal of consecutive repeated elements) on
the sorted reference list in `process_images`. -/
def dedupCons : List Str → List Str
  | [] => []
  | [a] => [a]
  | a :: b :: rest => if a = b then dedupCons (b :: rest) else a :: dedupCons (b :: rest)

/-! ### Decimal digits

Model of Rust's `Display` for unsigned integers, used by
`format!("image_{}_{}.{}", millis, i, "jpg")` in `process_images` and
`format!("chapter_{}.xhtml", i)` in `generate_epub_data`. -/

/-- ASCII decimal digit for `d < 10`. -/
def digitChar : Nat → Char
  | 0 => '0' | 1 => '1' | 2 => '2' | 3 => '3' | 4 => '4'
  | 5 => '5' | 6 => '6' | 7 => '7' | 8 => '8' | 9 => '9'
  | _ => '*'

/-- Fuel-driven decimal rendering (most significant digit first). -/
def natDigitsF : Nat → Nat → Str
  | 0, _ => []
  | fuel + 1, n =>
    if n < 10 then [digitChar n]
    else natDigitsF fuel (n / 10) ++ [digitChar (n % 10)]

/-- Decimal rendering of a natural number, the model of Rust's integer
`Display`. -/
def natDigits (n : Nat) : Str := natDigitsF (n + 1) n

/-- Numeric value of a digit string (left inverse of `natDigits`). -/
def digitsVal (l : Str) : Nat := l.foldl (fun acc c => acc * 10 + (c.toNat - 48)) 0

/-! ### Image reference discovery

Model of the scan in `process_images` with the Rust regex
`<img[^>]+src="([^"]+)"[^>]*>` under the regex crate's leftmost-first
match semantics: at each candidate start the greedy `[^>]+` prefers the
longest run (the rightmost viable `src="`), `[^"]+` and `[^>]*` are
forced maximal runs, and scanning resumes after each match. -/

/-- Parse the part of the pattern after the literal `src="`:
`([^"]+)"[^>]*>`.  Returns the capture and the rest of the input after
the whole match. -/
def matchTail (l : Str) : Option (Str × Str) :=
  let cap := l.takeWhile (fun c => c ≠ '"')
  let rest := l.dropWhile (fun c => c ≠ '"')
  if cap = [] then none
  else
    match rest with
    | '"' :: r2 =>
      match r2.dropWhile (fun c => c ≠ '>') with
      | '>' :: r4 => some (cap, r4)
      | _ => none
    | _ => none

/-- Try the literal `src="` at the current position followed by
`matchTail`. -/
def srcHere (l : Str) : Option (Str × Str) :=
  if (chars "src=\"").isPrefixOf l then matchTail (l.drop 5) else none

/-- After the literal `<img`, consume `[^>]+` greedily (at least one
non-`>` character), preferring the rightmost position where `src="` and
the tail match. -/
def imgScanBody : Str → Option (Str × Str)
  | [] => none
  | c :: rest =>
    if c = '>' then none
    else
      match imgScanBody rest with
      | some r => some r
      | none => srcHere rest

/-- Fuelled scan for successive non-overlapping matches, resuming after
each match (`Regex::captures_iter`). -/
def scanImgsF : Nat → Str → List Str
  | 0, _ => []
  | fuel + 1, l =>
    match l with
    | [] => []
    | c :: rest =>
      if (chars "<img").isPrefixOf (c :: rest) then
        match imgScanBody ((c :: rest).drop 4) with
        | some (cap, dropRest) => cap :: scanImgsF fuel dropRest
        | none => scanImgsF fuel rest
      else scanImgsF fuel rest

/-- All `src` captures of the image regex over the input, in match
order. -/
def scanImgs (l : Str) : List Str := scanImgsF l.length l

/-- The deduplicated reference list of `process_images`:
`matches.sort(); matches.dedup()`. -/
def dedupRefs (html : Str) : List Str :=
  dedupCons (List.insertionSort LexLe (scanImgs html))

/-! ### Global string replacement

Model of Rust's `str::replace`: replace every non-overlapping occurrence
of `pat`, scanning left to right. -/

/-- Fuelled global replacement; with fuel `0` the input is returned
unchanged, and fuel `≥ l.length` is always enough. -/
def replaceAllF : Nat → Str → Str → Str → Str
  | 0, _, _, l => l
  | fuel + 1, pat, rep, l =>
    match l with
    | [] => []
    | c :: rest =>
      if pat ≠ [] ∧ pat.isPrefixOf (c :: rest) then
        rep ++ replaceAllF fuel pat rep ((c :: rest).drop pat.length)
      else
        c :: replaceAllF fuel pat rep rest

/-- Model of `String::replace(&src, &filename)` in `process_images`. -/
def replaceAll (pat rep l : Str) : Str := replaceAllF l.length pat rep l

/-! ### The image transform pipeline (`process_images`, `src/image_inmem.rs`)

The network fetch (`download_image`), the image decode/resize/encode
(`resize_and_grayscale`) and the clock (`chrono::Utc::now`) are
external; they are passed as oracles `download`, `transform` and `ts`
(the timestamp in milliseconds observed by the unit with discovery
index `i`).  Task completion order under `JoinSet::join_next` is
unconstrained; it is passed as the list `order` of unit indices. -/

/-- The filename assigned to a successful unit:
`format!("image_{}_{}.{}", millis, i, "jpg")`. -/
def imageFilename (millis i : Nat) : Str :=
  chars "image_" ++ natDigits millis ++ chars "_" ++ natDigits i ++ chars ".jpg"

/-- Outcome of one fetch+transform unit. -/
inductive UnitResult : Type
  | ok (src fname : Str) (payload : List Nat) (mime : Str)
  | err (src : Str)
deriving DecidableEq

/-- One spawned unit of `process_images`: download, then transform, then
assign the filename; any failure is reported (not propagated). -/
def runUnit (download : Str → Option (List Nat)) (transform : List Nat → Option (List Nat))
    (ts : Nat → Nat) (i : Nat) (src : Str) : UnitResult :=
  match download src with
  | none => .err src
  | some bytes =>
    match transform bytes with
    | none => .err src
    | some processed => .ok src (imageFilename (ts i) i) processed (chars "image/jpeg")

/-- Folding one completed unit into the accumulated result: a success
replaces every occurrence of its source reference and records the
asset; a failure is only logged. -/
def applyResult (acc : Str × List (Str × List Nat × Str)) : UnitResult →
    Str × List (Str × List Nat × Str)
  | .ok src fname payload mime => (replaceAll src fname acc.1, acc.2 ++ [(fname, payload, mime)])
  | .err _ => acc

/-- The asset recorded for a completed unit, if it succeeded. -/
def okAsset : UnitResult → Option (Str × List Nat × Str)
  | .ok _ fname payload mime => some (fname, payload, mime)
  | .err _ => none

/-- Model of `process_images`: scan, sort, dedup, run one unit per
distinct reference, then fold the results in completion order. -/
def process_images (download : Str → Option (List Nat))
    (transform : List Nat → Option (List Nat)) (ts : Nat → Nat)
    (order : List Nat) (html : Str) : Str × List (Str × List Nat × Str) :=
  let refs := dedupRefs html
  let units := refs.enum.map fun p => runUnit download transform ts p.1 p.2
  let completed := order.filterMap fun k => units[k]?
  completed.foldl applyResult (html, [])

/-! ### Extraction strategies (`src/util/content_extractors.rs`) -/

/-- Type `ProcessorType` from `src/models.rs` (referenced by
`create_extractor`'s match). -/
inductive ProcessorType : Type
  | Default
  | DomSmoothie
  | TextOnly
  | Custom
deriving DecidableEq

/-- Record `ContentProcessor` from `src/models.rs`: identity, processor kind,
optional custom configuration blob. -/
structure ContentProcessor : Type where
  id : Int
  processor : ProcessorType
  custom_config : Option Str
deriving DecidableEq

/-- Output mode of a custom extractor configuration. -/
inductive OutputMode : Type
  | html
  | text
deriving DecidableEq

/-- Record `CustomExtractorConfig`: inclusion selectors, discard selectors and
output mode, parsed from the YAML blob. -/
structure CustomExtractorConfig : Type where
  selector : List Str
  discard : List Str
  output_mode : OutputMode
deriving DecidableEq

/-- The four extractor variants produced by `create_extractor`. -/
inductive Extractor : Type
  | DefaultExtractor
  | DomSmoothieExtractor
  | TextOnlyExtractor
  | CustomExtractor (config : CustomExtractorConfig)
deriving DecidableEq

/-- Model of `create_extractor`: the processor kind defaults to
`Default` when no processor is supplied; a `Custom` kind requires a
configuration blob that parses (the YAML parser is the oracle
`parseYaml`). -/
def create_extractor (parseYaml : Str → Option CustomExtractorConfig)
    (processor : Option ContentProcessor) : Except Str Extractor :=
  match (processor.map fun p => p.processor).getD ProcessorType.Default with
  | ProcessorType.DomSmoothie => Except.ok Extractor.DomSmoothieExtractor
  | ProcessorType.TextOnly => Except.ok Extractor.TextOnlyExtractor
  | ProcessorType.Custom =>
    match processor.bind fun p => p.custom_config with
    | none => Except.error (chars "Custom processor requires custom_config")
    | some cfg =>
      match parseYaml cfg with
      | none => Except.error (chars "Invalid YAML config")
      | some c => Except.ok (Extractor.CustomExtractor c)
  | ProcessorType.Default => Except.ok Extractor.DefaultExtractor

/-- ASCII model of `str::to_lowercase` applied to a hostname. -/
def lowerStr (s : Str) : Str := s.map Char.toLower

/-- Model of `extract_domain`: the `url` crate's parse and `host_str`
are the oracle `hostStr` (returning `none` when parsing fails or the
URL has no host); the hostname is lowercased. -/
def extract_domain (hostStr : Str → Option Str) (url : Str) : Option Str :=
  (hostStr url).map lowerStr

/-- Model of `get_domain_override`: `table` is the current
`DOMAIN_OVERRIDES` snapshot (`none` while the `OnceLock` is unset). -/
def get_domain_override (table : Option (Str → Option ContentProcessor))
    (hostStr : Str → Option Str) (url : Str) : Option ContentProcessor :=
  (extract_domain hostStr url).bind fun d => table.bind fun t => t d

/-- The extractor-selection expression of
`fetch_full_content_with_processor`: a domain override strictly wins,
otherwise the caller-supplied fallback processor is used. -/
def resolveExtractor (parseYaml : Str → Option CustomExtractorConfig)
    (table : Option (Str → Option ContentProcessor)) (hostStr : Str → Option Str)
    (url : Str) (processor : Option ContentProcessor) : Except Str Extractor :=
  match get_domain_override table hostStr url with
  | some content_processor => create_extractor parseYaml (some content_processor)
  | none => create_extractor parseYaml processor

/-! ### The domain-override registry (`refresh_domain_overrides` /
`get_domain_override`)

`DOMAIN_OVERRIDES` is an `OnceLock<ArcSwap<HashMap<..>>>`: the writer
builds a complete map from its input vector and publishes it with a
single atomic store; readers load the current pointer.  The model is a
transition system whose state carries the currently published table and
the log of all tables ever published. -/

/-- Hash-map insertion (last write per key wins), used to model
`collect::<HashMap<_, _>>()` in `refresh_domain_overrides`. -/
def insertKV (m : List (Str × ContentProcessor)) (k : Str) (v : ContentProcessor) :
    List (Str × ContentProcessor) :=
  if m.any fun p => p.1 == k then m.map fun p => if p.1 == k then (k, v) else p
  else m ++ [(k, v)]

/-- The complete map built by `refresh_domain_overrides` from its
override vector, before the single publishing store. -/
def buildOverrideMap (overrides : List (Str × ContentProcessor)) :
    List (Str × ContentProcessor) :=
  overrides.foldl (fun m p => insertKV m p.1 p.2) []

/-- Lookup (`HashMap::get`) on the built map. -/
def lookupOverride (m : List (Str × ContentProcessor)) (k : Str) : Option ContentProcessor :=
  (m.find? fun p => p.1 == k).map fun p => p.2

/-- Registry state: the currently published table (`none` while the
`OnceLock` is unset) and the history of published tables. -/
structure RegState : Type where
  cur : Option (List (Str × ContentProcessor))
  hist : List (List (Str × ContentProcessor))

/-- The only mutation of the registry: `refresh_domain_overrides`
builds a complete map and installs it wholesale (both the `OnceLock`
initialisation and the `ArcSwap::store` path). -/
inductive RegStep : RegState → RegState → Prop
  | refresh (s : RegState) (overrides : List (Str × ContentProcessor)) :
      RegStep s ⟨some (buildOverrideMap overrides), s.hist ++ [buildOverrideMap overrides]⟩

/-- Initial registry state: `OnceLock` unset. -/
def regInit : RegState := ⟨none, []⟩

/-- Registry states reachable by any interleaving of refresh calls. -/
def RegReachable (s : RegState) : Prop := Relation.ReflTransGen RegStep regInit s

/-- A reader's load of the override table (`DOMAIN_OVERRIDES.get()?.load()`). -/
def readOverrideTable (s : RegState) : Option (List (Str × ContentProcessor)) := s.cur

/-! ### The admission semaphore of `process_images`

`Semaphore::new(50)`; a permit is acquired before each unit is spawned
and moved into the task, whose scope drops it on every exit path
(success or failure). -/

/-- The fixed admission limit of `process_images`. -/
def admissionLimit : Nat := 50

/-- Semaphore state: available permits and running units. -/
structure SemState : Type where
  avail : Nat
  running : Nat
deriving DecidableEq

/-- Transitions of the admission discipline: a unit starts only by
acquiring a permit, and both exit paths (successful completion and
fetch/transform failure) release the permit. -/
inductive SemStep : SemState → SemState → Prop
  | spawn (a r : Nat) : 0 < a → SemStep ⟨a, r⟩ ⟨a - 1, r + 1⟩
  | finishOk (a r : Nat) : 0 < r → SemStep ⟨a, r⟩ ⟨a + 1, r - 1⟩
  | finishErr (a r : Nat) : 0 < r → SemStep ⟨a, r⟩ ⟨a + 1, r - 1⟩

/-- Initial semaphore state: all 50 permits free, nothing running. -/
def semInit : SemState := ⟨admissionLimit, 0⟩

/-- Semaphore states reachable during a `process_images` run. -/
def SemReachable (s : SemState) : Prop := Relation.ReflTransGen SemStep semInit s

/-! ### The custom extractor (`CustomExtractor::extract`)

The `dom_query` DOM library is external; documents are modelled as flat
element lists, CSS selectors as tag/class matchers, `Selection::text`
as the concatenated text of the matched elements and `Selection::html`
as their concatenated serialized markup. -/

/-- A DOM element as far as the custom extractor observes it. -/
structure Element : Type where
  tag : Str
  classes : List Str
  markup : Str
  textContent : Str
deriving DecidableEq

/-- A parsed CSS selector: tag selector (`p`) or class selector
(`.ad`). -/
inductive Selector : Type
  | tagSel (t : Str)
  | classSel (c : Str)
deriving DecidableEq

/-- Whether a selector matches an element. -/
def selMatches : Selector → Element → Bool
  | Selector.tagSel t, e => e.tag == t
  | Selector.classSel c, e => e.classes.contains c

/-- Whether any selector of a comma-joined group matches. -/
def anyMatches (sels : List Selector) (e : Element) : Bool := sels.any fun s => selMatches s e

abbrev Dom := List Element

/-- Combined text of a selection (`Selection::text`). -/
def textOf (d : Dom) : Str := (d.map fun e => e.textContent).flatten

/-- Serialized markup of a selection as returned by `Selection::html`:
dom_query (a fork of nipper, following goquery) returns the HTML of the
FIRST element of the set of matched elements only — unlike
`Selection::text`, which combines all matched elements. -/
def htmlOf (d : Dom) : Str :=
  match d with
  | [] => []
  | e :: _ => e.markup

/-- Model of `try_select`: `none` when nothing matches. -/
def trySelect (sels : List Selector) (d : Dom) : Option Dom :=
  let m := d.filter (anyMatches sels)
  if m.isEmpty then none else some m

/-- Removal of every element matching a selector group
(`Selection::remove`). -/
def removeSel (sels : List Selector) (d : Dom) : Dom := d.filter fun e => !anyMatches sels e

/-- The drain loop of `CustomExtractor::extract`: accumulate the
current selection (in text mode the accumulator is replaced; in html
mode `format!("{} {}", content, temp)` appends with a space, where
`temp = selected.html()` is only the FIRST matched element's markup),
remove the within-selection matches, reselect within the selection, and
stop when nothing matches. -/
def drain (incl : List Selector) (textMode : Bool) : Nat → Option Dom → Str → Str
  | _, none, content => content
  | 0, some _, content => content
  | fuel + 1, some sel, content =>
    let content' := if textMode then textOf sel else content ++ chars " " ++ htmlOf sel
    drain incl textMode fuel (trySelect incl (removeSel incl sel)) content'

/-- Model of `CustomExtractor::extract`: title from the first
`title`-selection (default `"Untitled"`), discard-selector removal, then
the drain loop over the inclusion selectors. -/
def customExtract (incl discard : List Selector) (mode : OutputMode) (doc : Dom) :
    Str × Str :=
  let title :=
    match trySelect [Selector.tagSel (chars "title")] doc with
    | none => chars "Untitled"
    | some sel => textOf sel
  let cleaned := removeSel discard doc
  let content := drain incl (mode == OutputMode.text) (doc.length + 1) (trySelect incl cleaned) []
  (title, content)

/-! ### Document assembly (`generate_epub_data` / `generate_epub`,
`src/epub_gen.rs`) -/

/-- An input article (`crate::feed::Article`); `pubDateStr` is the
`chrono`-formatted publication date. -/
structure Article : Type where
  source : Str
  title : Str
  link : Str
  content : Str
  pubDateStr : Str
deriving DecidableEq

/-- The chapter filename `format!("chapter_{}.xhtml", i)`, derived
solely from the article's index in the original flat list. -/
def chapterFilename (i : Nat) : Str := chars "chapter_" ++ natDigits i ++ chars ".xhtml"

/-- Model of `source.replace(|c| !c.is_alphanumeric(), "_").to_lowercase()`
(ASCII model of the unicode classifications). -/
def slug (s : Str) : Str := (s.map fun c => if c.isAlphanum then c else '_').map Char.toLower

/-- The per-source TOC filename `format!("toc_{}.xhtml", source_slug)`. -/
def sourceTocFilename (s : Str) : Str := chars "toc_" ++ slug s ++ chars ".xhtml"

/-- The distinct source labels (keys of `articles_by_source`). -/
def distinctSources (articles : List Article) : List Str :=
  (articles.map fun a => a.source).dedup

/-- The distinct source labels after `sources.sort()`. -/
def sortedSources (articles : List Article) : List Str :=
  List.insertionSort LexLe (distinctSources articles)

/-- A source's articles paired with their index in the original flat
list, in input order (the per-source group of `articles_by_source`,
with the `ptr::eq` position lookup modelled by carrying the index). -/
def groupIndexed (articles : List Article) (s : Str) : List (Nat × Article) :=
  articles.enum.filter fun p => p.2.source == s

/-- The rendered chapter page of one article. -/
def chapterHtml (a : Article) : Str :=
  chars "<h1>" ++ a.title ++ chars "</h1><p><strong>Source:</strong> " ++ a.source ++
    chars " <br/> <strong>Date:</strong> " ++ a.pubDateStr ++ chars "</p><hr/>" ++
    a.content ++ chars "<p><a href=\"" ++ a.link ++ chars "\">Read original article</a></p>"

/-- The rendered master table of contents. -/
def masterTocHtml (articles : List Article) : Str :=
  chars "<h1>Table of Contents</h1><ul>" ++
    ((sortedSources articles).map fun s =>
      chars "<li><a href=\"" ++ sourceTocFilename s ++ chars "\">" ++ s ++ chars "</a></li>").flatten ++
    chars "</ul>"

/-- The rendered per-source table of contents. -/
def sourceTocHtml (articles : List Article) (s : Str) : Str :=
  chars "<h1>" ++ s ++ chars "</h1><ul>" ++
    ((groupIndexed articles s).map fun p =>
      chars "<li><a href=\"" ++ chapterFilename p.1 ++ chars "\">" ++ p.2.title ++ chars "</a></li>").flatten ++
    chars "</ul>"

/-- The assembled document, before zip serialization: metadata, master
TOC, per-source TOCs in sorted source order, chapters in flat input
order. -/
structure EpubDoc : Type where
  author : Str
  titleMeta : Str
  masterToc : Str × Str
  sourceTocs : List (Str × Str)
  chapters : List (Str × Str × Str)
deriving DecidableEq

/-- The document assembled by `generate_epub_data` (`genDate` is the
formatted generation date from the clock). -/
def assembleEpub (articles : List Article) (genDate : Str) : EpubDoc :=
  { author := chars "RPub RSS Aggregator"
    titleMeta := chars "RSS Digest - " ++ genDate
    masterToc := (chars "toc.xhtml", masterTocHtml articles)
    sourceTocs := (sortedSources articles).map fun s => (sourceTocFilename s, sourceTocHtml articles s)
    chapters := articles.enum.map fun p => (chapterFilename p.1, p.2.title, chapterHtml p.2) }

/-- Number of fallible builder operations performed by
`generate_epub_data`: zip/builder construction (2), two metadata
assignments, the master TOC insertion, one insertion per source TOC,
one per chapter, and the final `builder.generate`. -/
def epubOpCount (articles : List Article) : Nat :=
  5 + (sortedSources articles).length + articles.length + 1

/-- Model of `generate_epub_data` with its failure behaviour: the
`epub_builder` operations are fallible (oracle `opOk`); each is
sequenced with `?`, so the first failure aborts and nothing is
produced. -/
def generate_epub_data (articles : List Article) (genDate : Str) (opOk : Nat → Bool) :
    Except Str EpubDoc :=
  match (List.range (epubOpCount articles)).find? (fun k => !opOk k) with
  | some _ => Except.error (chars "builder operation failed")
  | none => Except.ok (assembleEpub articles genDate)

/-- A filesystem effect of `generate_epub`. -/
inductive FsEvent : Type
  | mkdirE (dir : Str)
  | writeE (path : Str) (doc : EpubDoc)
deriving DecidableEq

/-- The final output path, `Path::new(output_dir).join(format!("rss_digest_{}.epub", timestamp))`. -/
def epubOutputPath (outputDir stamp : Str) : Str :=
  outputDir ++ chars "/rss_digest_" ++ stamp ++ chars ".epub"

/-- Model of `generate_epub`: build the full document in memory first;
only on success create the output directory and perform the single
final write (`fs::write`, modelled atomically: on failure no artifact
appears).  Returns the overall result and the filesystem trace. -/
def generate_epub (articles : List Article) (genDate : Str) (opOk : Nat → Bool)
    (mkdirOk writeOk : Bool) (outputDir stamp : Str) :
    Except Str Unit × List FsEvent :=
  match generate_epub_data articles genDate opOk with
  | Except.error e => (Except.error e, [])
  | Except.ok doc =>
    if !mkdirOk then
      (Except.error (chars "Failed to create output directory"), [FsEvent.mkdirE outputDir])
    else if writeOk then
      (Except.ok (), [FsEvent.mkdirE outputDir, FsEvent.writeE (epubOutputPath outputDir stamp) doc])
    else
      (Except.error (chars "Failed to write output file"), [FsEvent.mkdirE outputDir])

/-! ## Theorems -/

/-! ### Order lemmas for `lexLe` -/

theorem lexLe_total : ∀ a b : Str, lexLe a b = true ∨ lexLe b a = true := by
  intro a
  induction a with
  | nil => intro b; left; rfl
  | cons c cs ih =>
    intro b
    cases b with
    | nil => right; rfl
    | cons d ds =>
      by_cases h1 : c < d
      · left; simp [lexLe, h1]
      · by_cases h2 : d < c
        · right; simp [lexLe, h2]
        · rcases ih ds with h | h
          · left; simp [lexLe, h1, h2, h]
          · right; simp [lexLe, h1, h2, h]

theorem lexLe_antisymm : ∀ a b : Str, lexLe a b = true → lexLe b a = true → a = b := by
  intro a
  induction a with
  | nil =>
    intro b _ hba
    cases b with
    | nil => rfl
    | cons d ds => simp [lexLe] at hba
  | cons c cs ih =>
    intro b hab hba
    cases b with
    | nil => simp [lexLe] at hab
    | cons d ds =>
      by_cases h1 : c < d
      · simp [lexLe, h1, asymm h1] at hba
      · by_cases h2 : d < c
        · simp [lexLe, h1, h2] at hab
        · have hcd : c = d := le_antisymm (le_of_not_lt h2) (le_of_not_lt h1)
          subst hcd
          simp [lexLe, h1, h2] at hab hba
          rw [ih ds hab hba]

theorem lexLe_trans : ∀ a b c : Str, lexLe a b = true → lexLe b c = true →
    lexLe a c = true := by
  intro a
  induction a with
  | nil => intro b c _ _; rfl
  | cons x xs ih =>
    intro b c hab hbc
    cases b with
    | nil => simp [lexLe] at hab
    | cons y ys =>
      cases c with
      | nil => simp [lexLe] at hbc
      | cons z zs =>
        by_cases hxy : x < y
        · by_cases hyz : y < z
          · simp [lexLe, lt_trans hxy hyz]
          · by_cases hzy : z < y
            · simp [lexLe, hyz, hzy] at hbc
            · have hyzeq : y = z := le_antisymm (le_of_not_lt hzy) (le_of_not_lt hyz)
              subst hyzeq
              simp [lexLe, hxy]
        · by_cases hyx : y < x
          · simp [lexLe, hxy, hyx] at hab
          · have hxyeq : x = y := le_antisymm (le_of_not_lt hyx) (le_of_not_lt hxy)
            subst hxyeq
            simp only [lexLe, if_neg hxy, if_neg hyx] at hab ⊢
            by_cases hyz : x < z
            · simp [hyz]
            · by_cases hzy : z < x
              · simp [lexLe, hyz, hzy] at hbc
              · simp only [lexLe, if_neg hyz, if_neg hzy] at hbc ⊢
                exact ih ys zs hab hbc

/-! ### Deduplication lemmas -/

theorem mem_dedupCons {x : Str} : ∀ {l : List Str}, x ∈ dedupCons l ↔ x ∈ l := by
  intro l
  induction l with
  | nil => simp [dedupCons]
  | cons a t ih =>
    cases t with
    | nil => simp [dedupCons]
    | cons b rest =>
      by_cases hab : a = b
      · subst hab
        simp only [dedupCons, eq_self_iff_true, if_true]
        rw [ih]
        constructor
        · intro h; exact List.mem_cons_of_mem _ h
        · intro h
          rcases List.mem_cons.mp h with h | h
          · subst h; exact List.mem_cons_self _ _
          · exact h
      · simp only [dedupCons, if_neg hab]
        constructor
        · intro h
          rcases List.mem_cons.mp h with h | h
          · subst h; exact List.mem_cons_self _ _
          · exact List.mem_cons_of_mem _ (ih.mp h)
        · intro h
          rcases List.mem_cons.mp h with h | h
          · subst h; exact List.mem_cons_self _ _
          · exact List.mem_cons_of_mem _ (ih.mpr h)

theorem nodup_dedupCons_of_sorted : ∀ {l : List Str},
    l.Pairwise LexLe → (dedupCons l).Nodup := by
  intro l
  induction l with
  | nil => intro _; simp [dedupCons]
  | cons a t ih =>
    intro hp
    cases t with
    | nil => simp [dedupCons]
    | cons b rest =>
      have hp' : (b :: rest).Pairwise LexLe := hp.tail
      have hab : LexLe a b := (List.pairwise_cons.mp hp).1 b (List.mem_cons_self _ _)
      by_cases heq : a = b
      · simpa [dedupCons, if_pos heq] using ih hp'
      · simp only [dedupCons, if_neg heq, List.nodup_cons]
        refine ⟨?_, ih hp'⟩
        intro hmem
        have hmem' : a ∈ b :: rest := mem_dedupCons.mp hmem
        rcases List.mem_cons.mp hmem' with h | h
        · exact heq h
        · -- `a` occurs later in the sorted tail: antisymmetry forces `a = b`.
          have hba : LexLe b a := (List.pairwise_cons.mp hp').1 a h
          exact heq (lexLe_antisymm a b hab hba)

theorem count_one_of_nodup_mem {α : Type} [BEq α] [LawfulBEq α] :
    ∀ {l : List α} {a : α}, l.Nodup → a ∈ l → l.count a = 1 := by
  intro l
  induction l with
  | nil => intro a _ h; cases h
  | cons b t ih =>
    intro a hnd hmem
    rcases List.mem_cons.mp hmem with h | h
    · subst h
      have hnot : a ∉ t := (List.nodup_cons.mp hnd).1
      rw [List.count_cons_self, List.count_eq_zero.mpr hnot]
    · have hne : a ≠ b := by
        rintro rfl
        exact (List.nodup_cons.mp hnd).1 h
      rw [List.count_cons_of_ne hne, ih (List.nodup_cons.mp hnd).2 h]

theorem nodup_dedupRefs (html : Str) : (dedupRefs html).Nodup := by
  haveI : IsTotal Str LexLe := ⟨lexLe_total⟩
  haveI : IsTrans Str LexLe := ⟨lexLe_trans⟩
  exact nodup_dedupCons_of_sorted (List.sorted_insertionSort LexLe (scanImgs html))

theorem mem_dedupRefs {html r : Str} : r ∈ dedupRefs html ↔ r ∈ scanImgs html := by
  rw [dedupRefs, mem_dedupCons]
  exact (List.perm_insertionSort LexLe (scanImgs html)).mem_iff

theorem count_dedupRefs_eq_one {html : Str} {r : Str} (h : r ∈ scanImgs html) :
    (dedupRefs html).count r = 1 :=
  count_one_of_nodup_mem (nodup_dedupRefs html) (mem_dedupRefs.mpr h)

/-! ### Decimal digit lemmas -/

theorem natDigitsF_stable : ∀ (n fuel fuel' : Nat), n < fuel → n < fuel' →
    natDigitsF fuel n = natDigitsF fuel' n := by
  intro n
  induction n using Nat.strong_induction_on with
  | _ n ih =>
    intro fuel fuel' hf hf'
    match fuel, hf with
    | f + 1, _ =>
      match fuel', hf' with
      | f' + 1, _ =>
        by_cases h10 : n < 10
        · simp [natDigitsF, h10]
        · have hlt : n / 10 < n := Nat.div_lt_self (by omega) (by omega)
          simp only [natDigitsF, if_neg h10]
          rw [ih (n / 10) hlt f f' (by omega) (by omega)]

theorem digitChar_toNat (d : Nat) (h : d < 10) : (digitChar d).toNat - 48 = d := by
  interval_cases d <;> rfl

theorem digitsVal_append_digit (a : Str) (c : Char) :
    digitsVal (a ++ [c]) = digitsVal a * 10 + (c.toNat - 48) := by
  simp [digitsVal, List.foldl_append]

theorem digitsVal_natDigits : ∀ n, digitsVal (natDigits n) = n := by
  intro n
  induction n using Nat.strong_induction_on with
  | _ n ih =>
    by_cases h10 : n < 10
    · simp only [natDigits, natDigitsF, if_pos h10]
      simpa [digitsVal] using digitChar_toNat n h10
    · have hlt : n / 10 < n := Nat.div_lt_self (by omega) (by omega)
      simp only [natDigits, natDigitsF, if_neg h10]
      rw [natDigitsF_stable (n / 10) n (n / 10 + 1) (by omega) (by omega)]
      rw [digitsVal_append_digit]
      have h : digitsVal (natDigitsF (n / 10 + 1) (n / 10)) = n / 10 := ih (n / 10) hlt
      rw [h, digitChar_toNat (n % 10) (Nat.mod_lt _ (by omega))]
      omega

theorem natDigits_injective : ∀ m n, natDigits m = natDigits n → m = n := by
  intro m n h
  have := congrArg digitsVal h
  rwa [digitsVal_natDigits, digitsVal_natDigits] at this

theorem digitChar_isDigit (d : Nat) (h : d < 10) : (digitChar d).isDigit = true := by
  interval_cases d <;> rfl

theorem natDigits_all_digits : ∀ n, ∀ c ∈ natDigits n, c.isDigit = true := by
  intro n
  induction n using Nat.strong_induction_on with
  | _ n ih =>
    intro c hc
    by_cases h10 : n < 10
    · simp only [natDigits, natDigitsF, if_pos h10, List.mem_singleton] at hc
      subst hc; exact digitChar_isDigit n h10
    · have hlt : n / 10 < n := Nat.div_lt_self (by omega) (by omega)
      simp only [natDigits, natDigitsF, if_neg h10] at hc
      rw [natDigitsF_stable (n / 10) n (n / 10 + 1) (by omega) (by omega)] at hc
      rcases List.mem_append.mp hc with h | h
      · exact ih (n / 10) hlt c h
      · rw [List.mem_singleton] at h
        subst h; exact digitChar_isDigit (n % 10) (Nat.mod_lt _ (by omega))

/-! ### Replacement lemmas -/

/-- If `pat` does not occur in `l`, replacement leaves `l` unchanged
(any fuel). -/
theorem replaceAllF_no_occ : ∀ (fuel : Nat) (pat rep l : Str),
    ¬ pat <:+: l → replaceAllF fuel pat rep l = l := by
  intro fuel
  induction fuel with
  | zero => intro pat rep l _; rfl
  | succ f ih =>
    intro pat rep l hno
    match l with
    | [] => rfl
    | c :: rest =>
      have hnpre : ¬ (pat ≠ [] ∧ pat.isPrefixOf (c :: rest)) := by
        rintro ⟨-, hpre⟩
        exact hno (List.isPrefixOf_iff_prefix.mp hpre).isInfix
      rw [replaceAllF, if_neg hnpre]
      rw [ih pat rep rest (fun hinf => hno (List.infix_cons hinf))]

/-- Replacement walks untouched over a region with no occurrence start:
if no occurrence of `pat` begins inside `A`, the prefix `A` is copied
verbatim. -/
theorem replaceAllF_skip : ∀ (A : Str) (fuel : Nat) (pat rep rest : Str),
    A.length ≤ fuel →
    (∀ i, i < A.length → ¬ pat <+: (A ++ rest).drop i) →
    replaceAllF fuel pat rep (A ++ rest) =
      A ++ replaceAllF (fuel - A.length) pat rep rest := by
  intro A
  induction A with
  | nil => intro fuel pat rep rest _ _; simp
  | cons c A' ih =>
    intro fuel pat rep rest hfuel hocc
    obtain ⟨f, rfl⟩ : ∃ f, fuel = f + 1 := ⟨fuel - 1, by simp at hfuel; omega⟩
    have h0 : ¬ pat <+: ((c :: A') ++ rest) := by
      have := hocc 0 (by simp)
      simpa using this
    have hnpre : ¬ (pat ≠ [] ∧ pat.isPrefixOf ((c :: A') ++ rest)) := by
      rintro ⟨-, hpre⟩
      exact h0 (List.isPrefixOf_iff_prefix.mp hpre)
    have hf' : A'.length ≤ f := by simp at hfuel; omega
    show replaceAllF (f + 1) pat rep (c :: (A' ++ rest)) = _
    rw [replaceAllF, if_neg (by simpa using hnpre)]
    rw [ih f pat rep rest hf'
      (by
        intro i hi
        have := hocc (i + 1) (by simpa using Nat.succ_lt_succ hi)
        simpa using this)]
    simp [Nat.succ_sub_succ]

/-- Replacement fires on an occurrence sitting at the head of the
input. -/
theorem replaceAllF_hit : ∀ (fuel : Nat) (pat rep rest : Str), pat ≠ [] → 0 < fuel →
    replaceAllF fuel pat rep (pat ++ rest) = rep ++ replaceAllF (fuel - 1) pat rep rest := by
  intro fuel pat rep rest hne hfuel
  match fuel, hfuel with
  | f + 1, _ =>
    match pat, hne with
    | p :: ps, _ =>
      have hpre : (p :: ps).isPrefixOf ((p :: ps) ++ rest) = true :=
        List.isPrefixOf_iff_prefix.mpr (List.prefix_append _ _)
      show replaceAllF (f + 1) (p :: ps) rep (p :: (ps ++ rest)) = _
      rw [replaceAllF, if_pos ⟨by simp, by simpa using hpre⟩]
      congr 1
      have : (p :: (ps ++ rest)).drop (p :: ps).length = rest := List.drop_left (p :: ps) rest
      rw [this]
      simp

/-- Global replacement of a single isolated occurrence. -/
theorem replaceAll_one_occ (pat rep A B : Str) (hne : pat ≠ [])
    (hA : ∀ i, i < A.length → ¬ pat <+: (A ++ pat ++ B).drop i)
    (hB : ¬ pat <:+: B) :
    replaceAll pat rep (A ++ pat ++ B) = A ++ rep ++ B := by
  have hlen : (A ++ pat ++ B).length = A.length + (pat.length + B.length) := by
    simp [Nat.add_assoc]
  have hple : 1 ≤ pat.length := by
    cases pat with
    | nil => exact absurd rfl hne
    | cons p ps => simp
  rw [replaceAll, hlen]
  rw [List.append_assoc]
  rw [replaceAllF_skip A _ pat rep (pat ++ B) (by omega)
    (by simpa [List.append_assoc] using hA)]
  have h1 : A.length + (pat.length + B.length) - A.length = pat.length + B.length := by omega
  rw [h1]
  rw [replaceAllF_hit _ pat rep B hne (by omega)]
  rw [replaceAllF_no_occ _ pat rep B hB]
  simp

/-- Global replacement of two isolated occurrences. -/
theorem replaceAll_two_occ (pat rep A B C : Str) (hne : pat ≠ [])
    (hA : ∀ i, i < A.length → ¬ pat <+: (A ++ pat ++ B ++ pat ++ C).drop i)
    (hB : ∀ i, i < B.length → ¬ pat <+: (B ++ pat ++ C).drop i)
    (hC : ¬ pat <:+: C) :
    replaceAll pat rep (A ++ pat ++ B ++ pat ++ C) = A ++ rep ++ B ++ rep ++ C := by
  have hple : 1 ≤ pat.length := by
    cases pat with
    | nil => exact absurd rfl hne
    | cons p ps => simp
  have hlen : (A ++ pat ++ B ++ pat ++ C).length =
      A.length + (pat.length + (B.length + (pat.length + C.length))) := by
    simp [Nat.add_assoc]
  rw [replaceAll, hlen]
  rw [List.append_assoc, List.append_assoc, List.append_assoc]
  rw [replaceAllF_skip A _ pat rep (pat ++ (B ++ (pat ++ C))) (by omega)
    (by simpa [List.append_assoc] using hA)]
  have h1 : A.length + (pat.length + (B.length + (pat.length + C.length))) - A.length =
      pat.length + (B.length + (pat.length + C.length)) := by omega
  rw [h1]
  rw [replaceAllF_hit _ pat rep (B ++ (pat ++ C)) hne (by omega)]
  rw [replaceAllF_skip B _ pat rep (pat ++ C) (by omega)
    (by simpa [List.append_assoc] using hB)]
  have h2 : pat.length + (B.length + (pat.length + C.length)) - 1 - B.length ≥ 1 := by omega
  rw [replaceAllF_hit _ pat rep C hne (by omega)]
  rw [replaceAllF_no_occ _ pat rep C hC]
  simp

/-! ### Filename uniqueness lemmas -/

/-- Splitting at a separator character absent from both left parts is
injective. -/
theorem append_sep_inj (sep : Char) : ∀ (a b x y : Str), sep ∉ a → sep ∉ b →
    a ++ sep :: x = b ++ sep :: y → a = b ∧ x = y := by
  intro a
  induction a with
  | nil =>
    intro b x y _ hb h
    cases b with
    | nil => simpa using h
    | cons d b' =>
      simp only [List.nil_append, List.cons_append, List.cons.injEq] at h
      exact absurd (h.1 ▸ List.mem_cons_self d b') (by simpa [h.1] using hb)
  | cons c a' ih =>
    intro b x y ha hb h
    cases b with
    | nil =>
      simp only [List.cons_append, List.nil_append, List.cons.injEq] at h
      exact absurd (h.1 ▸ List.mem_cons_self c a') (by simpa [h.1] using ha)
    | cons d b' =>
      simp only [List.cons_append, List.cons.injEq] at h
      obtain ⟨rfl, h2⟩ := h
      have := ih b' x y (fun hm => ha (List.mem_cons_of_mem _ hm))
        (fun hm => hb (List.mem_cons_of_mem _ hm)) h2
      exact ⟨by rw [this.1], this.2⟩

theorem underscore_not_in_natDigits (n : Nat) : '_' ∉ natDigits n := by
  intro h
  have := natDigits_all_digits n '_' h
  simp [Char.isDigit] at this

theorem dot_not_in_natDigits (n : Nat) : '.' ∉ natDigits n := by
  intro h
  have := natDigits_all_digits n '.' h
  simp [Char.isDigit] at this

/-- Two assigned image filenames agree only if both the embedded
timestamp and the embedded discovery index agree. -/
theorem imageFilename_inj (m m' i i' : Nat)
    (h : imageFilename m i = imageFilename m' i') : m = m' ∧ i = i' := by
  have h1 : natDigits m ++ '_' :: (natDigits i ++ chars ".jpg") =
      natDigits m' ++ '_' :: (natDigits i' ++ chars ".jpg") := by
    have := List.append_cancel_left (by simpa [imageFilename, chars] using h :
      chars "image_" ++ (natDigits m ++ '_' :: (natDigits i ++ chars ".jpg")) =
      chars "image_" ++ (natDigits m' ++ '_' :: (natDigits i' ++ chars ".jpg")))
    exact this
  obtain ⟨hm, hrest⟩ := append_sep_inj '_' (natDigits m) (natDigits m') _ _
    (underscore_not_in_natDigits m) (underscore_not_in_natDigits m') h1
  have h2 : natDigits i ++ '.' :: chars "jpg" = natDigits i' ++ '.' :: chars "jpg" := by
    simpa [chars] using hrest
  obtain ⟨hi, -⟩ := append_sep_inj '.' (natDigits i) (natDigits i') _ _
    (dot_not_in_natDigits i) (dot_not_in_natDigits i') h2
  exact ⟨natDigits_injective m m' hm, natDigits_injective i i' hi⟩

/-! ### Pipeline folding lemmas -/

/-- The asset list accumulated by the completion-fold is exactly the
assets of the successful units, in completion order. -/
theorem foldl_applyResult_snd : ∀ (completed : List UnitResult)
    (acc : Str × List (Str × List Nat × Str)),
    (completed.foldl applyResult acc).2 = acc.2 ++ completed.filterMap okAsset := by
  intro completed
  induction completed with
  | nil => intro acc; simp
  | cons u rest ih =>
    intro acc
    cases u with
    | ok src fname payload mime =>
      simp only [List.foldl_cons, applyResult, List.filterMap_cons, okAsset, ih]
      simp
    | err src =>
      simp only [List.foldl_cons, applyResult, List.filterMap_cons, okAsset, ih]

/-- A fold over failed units only leaves the accumulator unchanged. -/
theorem foldl_applyResult_all_err : ∀ (completed : List UnitResult)
    (acc : Str × List (Str × List Nat × Str)),
    (∀ u ∈ completed, ∃ s, u = UnitResult.err s) →
    completed.foldl applyResult acc = acc := by
  intro completed
  induction completed with
  | nil => intro acc _; rfl
  | cons u rest ih =>
    intro acc hall
    obtain ⟨s, rfl⟩ := hall u (List.mem_cons_self _ _)
    simp only [List.foldl_cons, applyResult]
    exact ih acc fun u hu => hall u (List.mem_cons_of_mem _ hu)

/-- The unit list of `process_images`, position by position. -/
theorem units_getElem? (download : Str → Option (List Nat))
    (transform : List Nat → Option (List Nat)) (ts : Nat → Nat) (refs : List Str) (k : Nat) :
    (refs.enum.map fun p => runUnit download transform ts p.1 p.2)[k]? =
      refs[k]?.map fun src => runUnit download transform ts k src := by
  rw [List.getElem?_map, List.getElem?_enum]
  cases refs[k]? <;> rfl

/-- Evaluation of `process_images` on a single distinct successfully processed
reference. -/
theorem process_images_single (download : Str → Option (List Nat))
    (transform : List Nat → Option (List Nat)) (ts : Nat → Nat) (html r : Str)
    (b p : List Nat) (hded : dedupRefs html = [r])
    (hd : download r = some b) (ht : transform b = some p) :
    process_images download transform ts [0] html =
      (replaceAll r (imageFilename (ts 0) 0) html,
       [(imageFilename (ts 0) 0, p, chars "image/jpeg")]) := by
  have hrun : runUnit download transform ts 0 r =
      UnitResult.ok r (imageFilename (ts 0) 0) p (chars "image/jpeg") := by
    simp [runUnit, hd, ht]
  simp [process_images, hded, hrun, applyResult]

/-- Evaluation of `process_images` on two distinct references, the first successful
and the second failing, under either completion order. -/
theorem process_images_pair (download : Str → Option (List Nat))
    (transform : List Nat → Option (List Nat)) (ts : Nat → Nat) (html r1 r2 : Str)
    (b p : List Nat) (order : List Nat) (hded : dedupRefs html = [r1, r2])
    (hd1 : download r1 = some b) (ht : transform b = some p) (hd2 : download r2 = none)
    (horder : order = [0, 1] ∨ order = [1, 0]) :
    process_images download transform ts order html =
      (replaceAll r1 (imageFilename (ts 0) 0) html,
       [(imageFilename (ts 0) 0, p, chars "image/jpeg")]) := by
  have hrun1 : runUnit download transform ts 0 r1 =
      UnitResult.ok r1 (imageFilename (ts 0) 0) p (chars "image/jpeg") := by
    simp [runUnit, hd1, ht]
  have hrun2 : runUnit download transform ts 1 r2 = UnitResult.err r2 := by
    simp [runUnit, hd2]
  rcases horder with rfl | rfl <;>
    simp [process_images, hded, hrun1, hrun2, applyResult]

/-- When every download fails, `process_images` returns the input HTML
unchanged and no assets. -/
theorem process_images_all_fail (download : Str → Option (List Nat))
    (transform : List Nat → Option (List Nat)) (ts : Nat → Nat) (order : List Nat)
    (html : Str) (hall : ∀ s, download s = none) :
    process_images download transform ts order html = (html, []) := by
  simp only [process_images]
  apply foldl_applyResult_all_err
  intro u hu
  rcases List.mem_filterMap.mp hu with ⟨k, hk, hget⟩
  rw [units_getElem?] at hget
  rcases Option.map_eq_some'.mp hget with ⟨src, hsrc, hu'⟩
  refine ⟨src, ?_⟩
  rw [← hu']
  simp [runUnit, hall src]

/-- A successful unit's assigned filename is determined by its discovery
index and observed timestamp. -/
theorem runUnit_ok_fname (download : Str → Option (List Nat))
    (transform : List Nat → Option (List Nat)) (ts : Nat → Nat) (i : Nat)
    (src s f : Str) (p : List Nat) (m : Str)
    (h : runUnit download transform ts i src = UnitResult.ok s f p m) :
    f = imageFilename (ts i) i := by
  unfold runUnit at h
  cases hd : download src with
  | none =>
    simp only [hd] at h
    exact absurd h (by simp)
  | some bytes =>
    simp only [hd] at h
    cases ht : transform bytes with
    | none =>
      simp only [ht] at h
      exact absurd h (by simp)
    | some processed =>
      simp only [ht] at h
      injection h with h1 h2 h3 h4
      exact h2.symm

/-! ### Claims about the image pipeline -/

/-- Claim C10: for every HTML input in which the image-discovery pattern
finds no image source attribute (in particular any input containing no
img element), `process_images` returns the input HTML unchanged together
with an empty asset list. -/
theorem claim_C10_no_refs_identity (download : Str → Option (List Nat))
    (transform : List Nat → Option (List Nat)) (ts : Nat → Nat) (order : List Nat)
    (html : Str) (h : scanImgs html = []) :
    process_images download transform ts order html = (html, []) := by
  have hded : dedupRefs html = [] := by
    simp [dedupRefs, h, List.insertionSort, dedupCons]
  have hnone : List.filterMap (fun k : Nat => (none : Option UnitResult)) order = [] := by
    induction order with
    | nil => rfl
    | cons a t ih => simpa [List.filterMap_cons] using ih
  simp only [process_images, hded]
  simp only [List.enum_nil, List.map_nil, List.getElem?_nil, hnone, List.foldl_nil]

theorem claim_C10_witness :
    scanImgs (chars "<p>hello</p>") = [] ∧
    process_images (fun _ => some []) (fun _ => some []) (fun _ => 0) [0]
      (chars "<p>hello</p>") = (chars "<p>hello</p>", []) :=
  ⟨by decide, claim_C10_no_refs_identity _ _ _ _ _ (by decide)⟩

/-- Claim C2, amended: `process_images` creates exactly one
fetch/transform unit per discovered reference (deduplication), and when
the duplicated reference is the only distinct discovered reference and
its occurrences do not overlap, every occurrence is rewritten to the one
identical assigned filename.  (As originally stated the claim fails when
another distinct processed reference overlaps the duplicated one as a
substring; see the counterexample.) -/
theorem claim_C2_dedup_and_identical_rewrite :
    (∀ html r, r ∈ scanImgs html → (dedupRefs html).count r = 1) ∧
    (∀ (download : Str → Option (List Nat)) (transform : List Nat → Option (List Nat))
       (ts : Nat → Nat) (A B C r : Str) (b p : List Nat),
      dedupRefs (A ++ r ++ B ++ r ++ C) = [r] → r ≠ [] →
      download r = some b → transform b = some p →
      (∀ i, i < A.length → ¬ r <+: (A ++ r ++ B ++ r ++ C).drop i) →
      (∀ i, i < B.length → ¬ r <+: (B ++ r ++ C).drop i) →
      ¬ r <:+: C →
      process_images download transform ts [0] (A ++ r ++ B ++ r ++ C) =
        (A ++ imageFilename (ts 0) 0 ++ B ++ imageFilename (ts 0) 0 ++ C,
         [(imageFilename (ts 0) 0, p, chars "image/jpeg")])) := by
  constructor
  · intro html r h
    exact count_dedupRefs_eq_one h
  · intro download transform ts A B C r b p hded hne hd ht hA hB hC
    rw [process_images_single download transform ts _ r b p hded hd ht]
    rw [replaceAll_two_occ r _ A B C hne hA hB hC]

theorem claim_C2_witness :
    process_images (fun _ => some [1]) (fun _ => some [2]) (fun _ => 7) [0]
        (chars "<img src=\"a.png\"><img src=\"a.png\">") =
      (chars "<img src=\"image_7_0.jpg\"><img src=\"image_7_0.jpg\">",
       [(chars "image_7_0.jpg", [2], chars "image/jpeg")]) := by
  have h := claim_C2_dedup_and_identical_rewrite.2 (fun _ => some [1]) (fun _ => some [2])
    (fun _ => 7) (chars "<img src=\"") (chars "\"><img src=\"") (chars "\">")
    (chars "a.png") [1] [2] (by decide) (by decide) rfl rfl (by decide) (by decide) (by decide)
  have h1 : chars "<img src=\"a.png\"><img src=\"a.png\">" =
      chars "<img src=\"" ++ chars "a.png" ++ chars "\"><img src=\"" ++
        chars "a.png" ++ chars "\">" := by decide
  rw [h1, h]
  decide

/-- Claim C2 counterexample: in the input below the reference `a.png`
occurs in two img elements and its unit succeeds, yet under the
completion order that applies the (also discovered) reference `a.pn`
first, no occurrence of `a.png` is rewritten to `a.png`'s assigned
filename `image_5_1.jpg` — the occurrences are corrupted by the
substring replacement of `a.pn` instead. -/
theorem claim_C2_counterexample :
    (scanImgs (chars "<img src=\"a.png\"><img src=\"a.png\"><img src=\"a.pn\">")).count
        (chars "a.png") = 2 ∧
    dedupRefs (chars "<img src=\"a.png\"><img src=\"a.png\"><img src=\"a.pn\">") =
      [chars "a.pn", chars "a.png"] ∧
    runUnit (fun _ => some [1]) (fun _ => some [2]) (fun _ => 5) 1 (chars "a.png") =
      UnitResult.ok (chars "a.png") (imageFilename 5 1) [2] (chars "image/jpeg") ∧
    ¬ imageFilename 5 1 <:+:
      (process_images (fun _ => some [1]) (fun _ => some [2]) (fun _ => 5) [0, 1]
        (chars "<img src=\"a.png\"><img src=\"a.png\"><img src=\"a.pn\">")).1 := by
  decide

/-- Claim C3, amended: `process_images` always returns a
(rewritten html, assets) pair; failed references produce no asset and no
rewrite (when every fetch fails the input is returned untouched), and in
the two-reference scenario with one success and one fetch failure whose
occurrences do not overlap, the successful reference is rewritten, the
failed reference is left as its original literal string, and exactly one
asset is produced.  (As originally stated the claim fails when a
successful reference overlaps the failed one as a substring; see the
counterexample.) -/
theorem claim_C3_graceful_degradation :
    (∀ (download : Str → Option (List Nat)) (transform : List Nat → Option (List Nat))
       (ts : Nat → Nat) (order : List Nat) (html : Str),
      (∀ s, download s = none) →
      process_images download transform ts order html = (html, [])) ∧
    (∀ (download : Str → Option (List Nat)) (transform : List Nat → Option (List Nat))
       (ts : Nat → Nat) (order : List Nat) (A B r1 r2 : Str) (b p : List Nat),
      dedupRefs (A ++ r1 ++ B) = [r1, r2] → r1 ≠ [] →
      download r1 = some b → transform b = some p → download r2 = none →
      (order = [0, 1] ∨ order = [1, 0]) →
      (∀ i, i < A.length → ¬ r1 <+: (A ++ r1 ++ B).drop i) →
      ¬ r1 <:+: B → r2 <:+: B →
      process_images download transform ts order (A ++ r1 ++ B) =
          (A ++ imageFilename (ts 0) 0 ++ B,
           [(imageFilename (ts 0) 0, p, chars "image/jpeg")]) ∧
        r2 <:+: (A ++ imageFilename (ts 0) 0 ++ B)) := by
  constructor
  · intro download transform ts order html hall
    exact process_images_all_fail download transform ts order html hall
  · intro download transform ts order A B r1 r2 b p hded hne hd1 ht hd2 ho hA hB hr2
    constructor
    · rw [process_images_pair download transform ts _ r1 r2 b p order hded hd1 ht hd2 ho]
      rw [replaceAll_one_occ r1 _ A B hne hA hB]
    · exact hr2.trans (List.suffix_append (A ++ imageFilename (ts 0) 0) B).isInfix

theorem claim_C3_witness :
    process_images (fun s => if s = chars "a.png" then some [1] else none)
        (fun _ => some [2]) (fun _ => 7) [0, 1]
        (chars "<img src=\"a.png\"><img src=\"b.png\">") =
      (chars "<img src=\"image_7_0.jpg\"><img src=\"b.png\">",
       [(chars "image_7_0.jpg", [2], chars "image/jpeg")]) ∧
    chars "b.png" <:+: chars "<img src=\"image_7_0.jpg\"><img src=\"b.png\">" := by
  have h := claim_C3_graceful_degradation.2
    (fun s => if s = chars "a.png" then some [1] else none) (fun _ => some [2])
    (fun _ => 7) [0, 1] (chars "<img src=\"") (chars "\"><img src=\"b.png\">")
    (chars "a.png") (chars "b.png") [1] [2] (by decide) (by decide) (by decide) rfl
    (by decide) (Or.inl rfl) (by decide) (by decide) (by decide)
  have h1 : chars "<img src=\"a.png\"><img src=\"b.png\">" =
      chars "<img src=\"" ++ chars "a.png" ++ chars "\"><img src=\"b.png\">" := by decide
  rw [h1]
  constructor
  · rw [h.1]
    decide
  · have := h.2
    revert this
    decide

/-- Claim C3 counterexample: in the input below the fetch of the
discovered reference `a.png` fails, but `a.png` is not left as its
original literal string in the output HTML: under the completion order
that applies the successful reference `a.pn` first, the substring
replacement of `a.pn` corrupts every occurrence of `a.png`. -/
theorem claim_C3_counterexample :
    dedupRefs (chars "<img src=\"a.png\"><img src=\"a.pn\">") =
      [chars "a.pn", chars "a.png"] ∧
    runUnit (fun s => if s = chars "a.pn" then some [1] else none) (fun _ => some [2])
        (fun _ => 5) 1 (chars "a.png") = UnitResult.err (chars "a.png") ∧
    ¬ chars "a.png" <:+:
      (process_images (fun s => if s = chars "a.pn" then some [1] else none)
        (fun _ => some [2]) (fun _ => 5) [0, 1]
        (chars "<img src=\"a.png\"><img src=\"a.pn\">")).1 := by
  decide

/-- Claim C5, amended: within a single `process_images` call, all
generated asset filenames are distinct — two distinct successfully
processed references are never assigned the same filename, because the
filename embeds the reference's discovery index.  (Across two
`process_images` calls of the same run the claim as stated fails when
both calls observe the same millisecond timestamp; see the
counterexample.) -/
theorem claim_C5_filenames_unique_per_call
    (download : Str → Option (List Nat)) (transform : List Nat → Option (List Nat))
    (ts : Nat → Nat) (order : List Nat) (html : Str) (hnd : order.Nodup) :
    (((process_images download transform ts order html).2).map fun a => a.1).Nodup := by
  simp only [process_images]
  rw [foldl_applyResult_snd, List.nil_append]
  rw [List.map_filterMap, List.filterMap_filterMap]
  apply hnd.filterMap
  intro k k' fname hk hk'
  have hgen : ∀ (j : Nat),
      fname ∈ ((dedupRefs html).enum.map fun p =>
          runUnit download transform ts p.1 p.2)[j]?.bind
        (fun a => (okAsset a).map fun x => x.1) →
      fname = imageFilename (ts j) j := by
    intro j hj
    rw [units_getElem?] at hj
    rcases ho : (dedupRefs html)[j]? with _ | src
    · rw [ho] at hj; cases hj
    · rw [ho] at hj
      simp only [Option.map_some', Option.some_bind] at hj
      rcases hu : runUnit download transform ts j src with ⟨s, f, p, m⟩ | s
      · rw [hu] at hj
        simp only [okAsset, Option.map_some'] at hj
        have hf := runUnit_ok_fname download transform ts j src s f p m hu
        rw [Option.mem_def, Option.some_inj] at hj
        rw [← hj, hf]
      · rw [hu] at hj
        simp only [okAsset, Option.map_none'] at hj
        cases hj
  have h1 := hgen k hk
  have h2 := hgen k' hk'
  exact (imageFilename_inj (ts k) (ts k') k k' (h1 ▸ h2 ▸ rfl)).2

theorem claim_C5_witness :
    ([0, 1] : List Nat).Nodup ∧
    (((process_images (fun _ => some [1]) (fun _ => some [2]) (fun _ => 3) [0, 1]
      (chars "<img src=\"a.png\"><img src=\"b.png\">")).2).map fun a => a.1).Nodup :=
  ⟨by decide, claim_C5_filenames_unique_per_call _ _ _ _ _ (by decide)⟩

/-- Claim C5 counterexample: two `process_images` calls of the same run
(one per article) that observe the same millisecond timestamp assign the
same filename `image_1000_0.jpg` to the two distinct references `a.png`
and `b.png`. -/
theorem claim_C5_counterexample :
    ((process_images (fun _ => some [1]) (fun _ => some [2]) (fun _ => 1000) [0]
        (chars "<img src=\"a.png\">")).2).map (fun a => a.1) = [chars "image_1000_0.jpg"] ∧
    ((process_images (fun _ => some [3]) (fun _ => some [4]) (fun _ => 1000) [0]
        (chars "<img src=\"b.png\">")).2).map (fun a => a.1) = [chars "image_1000_0.jpg"] ∧
    chars "a.png" ≠ chars "b.png" := by
  decide

/-! ### Claims about strategy resolution and the override registry -/

/-- Claim C1: for every URL whose lowercase hostname is present in the
current domain-override table, strategy resolution selects the extractor
built from that override's `ContentProcessor`, regardless of any
caller-supplied fallback processor; for every URL that fails to parse or
whose hostname is absent from the table, the caller-supplied fallback is
used, defaulting to the `Default` kind when the caller supplies none. -/
theorem claim_C1_override_resolution :
    (∀ (parseYaml : Str → Option CustomExtractorConfig)
       (tbl : Str → Option ContentProcessor) (hostStr : Str → Option Str)
       (url host : Str) (cp : ContentProcessor),
      hostStr url = some host → tbl (lowerStr host) = some cp →
      ∀ fallback, resolveExtractor parseYaml (some tbl) hostStr url fallback =
        create_extractor parseYaml (some cp)) ∧
    (∀ (parseYaml : Str → Option CustomExtractorConfig)
       (table : Option (Str → Option ContentProcessor)) (hostStr : Str → Option Str)
       (url : Str) (fallback : Option ContentProcessor),
      hostStr url = none →
      resolveExtractor parseYaml table hostStr url fallback =
        create_extractor parseYaml fallback) ∧
    (∀ (parseYaml : Str → Option CustomExtractorConfig)
       (table : Option (Str → Option ContentProcessor)) (hostStr : Str → Option Str)
       (url : Str) (fallback : Option ContentProcessor),
      get_domain_override table hostStr url = none →
      resolveExtractor parseYaml table hostStr url fallback =
        create_extractor parseYaml fallback) ∧
    (∀ parseYaml : Str → Option CustomExtractorConfig,
      create_extractor parseYaml none = Except.ok Extractor.DefaultExtractor) := by
  refine ⟨?_, ?_, ?_, ?_⟩
  · intro parseYaml tbl hostStr url host cp h1 h2 fallback
    simp [resolveExtractor, get_domain_override, extract_domain, h1, h2]
  · intro parseYaml table hostStr url fallback h
    simp [resolveExtractor, get_domain_override, extract_domain, h]
  · intro parseYaml table hostStr url fallback h
    simp [resolveExtractor, h]
  · intro parseYaml
    rfl

theorem claim_C1_witness :
    resolveExtractor (fun _ => none)
      (some fun d => if d = chars "example.com"
        then some ⟨1, ProcessorType.TextOnly, none⟩ else none)
      (fun _ => some (chars "EXAMPLE.com")) (chars "https://example.com/a") none =
      Except.ok Extractor.TextOnlyExtractor := by
  have h := claim_C1_override_resolution.1 (fun _ => none)
    (fun d => if d = chars "example.com" then some ⟨1, ProcessorType.TextOnly, none⟩ else none)
    (fun _ => some (chars "EXAMPLE.com")) (chars "https://example.com/a")
    (chars "EXAMPLE.com") ⟨1, ProcessorType.TextOnly, none⟩ rfl (by decide) none
  rw [h]
  rfl

/-- Claim C9: the domain-override table is only ever replaced wholesale
by an atomic snapshot swap: in every reachable registry state, a
reader's load observes either nothing (the `OnceLock` still unset) or
one of the complete tables published by some `refresh_domain_overrides`
call — never a partially updated map, since every published table is the
complete map built from a refresh call's input. -/
theorem claim_C9_atomic_snapshot (s : RegState) (hs : RegReachable s) :
    (∀ t, readOverrideTable s = some t → t ∈ s.hist) ∧
    (∀ t ∈ s.hist, ∃ overrides, t = buildOverrideMap overrides) := by
  induction hs with
  | refl =>
    constructor
    · intro t ht
      cases ht
    · intro t ht
      cases ht
  | tail hreach hstep ih =>
    cases hstep with
    | refresh overrides =>
      constructor
      · intro t ht
        rw [readOverrideTable] at ht
        simp only [Option.some_inj] at ht
        subst ht
        simp
      · intro t ht
        rcases List.mem_append.mp ht with h | h
        · exact ih.2 t h
        · rw [List.mem_singleton] at h
          exact ⟨overrides, h⟩

theorem claim_C9_witness :
    buildOverrideMap [(chars "a.com", ⟨1, ProcessorType.TextOnly, none⟩)] ∈
      (RegState.mk (some (buildOverrideMap [(chars "a.com", ⟨1, ProcessorType.TextOnly, none⟩)]))
        ([] ++ [buildOverrideMap [(chars "a.com", ⟨1, ProcessorType.TextOnly, none⟩)]])).hist :=
  (claim_C9_atomic_snapshot _
    (Relation.ReflTransGen.single
      (RegStep.refresh regInit [(chars "a.com", ⟨1, ProcessorType.TextOnly, none⟩)]))).1
    _ rfl

/-- Claim C8: under the admission discipline of `process_images`
(acquire one of 50 permits before starting a unit; release it on both
exit paths, success and failure), the number of concurrently running
fetch+transform units never exceeds 50 in any reachable state. -/
theorem claim_C8_admission_bound (s : SemState) (hs : SemReachable s) :
    s.avail + s.running = admissionLimit ∧ s.running ≤ admissionLimit := by
  have hinv : s.avail + s.running = admissionLimit := by
    induction hs with
    | refl => rfl
    | tail hreach hstep ih =>
      cases hstep with
      | spawn a r ha => simp only at ih ⊢; omega
      | finishOk a r hr => simp only at ih ⊢; omega
      | finishErr a r hr => simp only at ih ⊢; omega
  exact ⟨hinv, by omega⟩

theorem claim_C8_witness :
    (SemState.mk (50 - 1) (0 + 1)).running ≤ admissionLimit :=
  (claim_C8_admission_bound _
    (Relation.ReflTransGen.single (SemStep.spawn admissionLimit 0 (by decide)))).2

/-! ### Claim about the custom extractor -/

/-- Claim C6 is refuted by the code: discard-matched elements are indeed
removed before the drain loop, and the loop terminates after its first
round (nothing within the selection is left to reselect), but in `Html`
output mode the content is NOT the markup of all inclusion-matched
non-discarded elements: `selected.html()` returns only the FIRST
matched element's markup, so for every input the content is the leading
space plus the first kept element's markup alone — in particular, on
the claim's own scenario (inclusion `p`, discard `.ad`, three plain
paragraphs and one `<p class="ad">`), the second and third paragraphs'
markup is absent from the output.  The claim (and the spec's drain-loop
description) matches the evident intent of the accumulate/remove/
reselect loop, so this is recorded as a code bug. -/
theorem claim_C6_first_element_divergence :
    (∀ (incl discard : List Selector) (doc : Dom),
      (customExtract incl discard OutputMode.html doc).2 =
        if (doc.filter fun e => anyMatches incl e && !anyMatches discard e).isEmpty then []
        else chars " " ++
          htmlOf (doc.filter fun e => anyMatches incl e && !anyMatches discard e)) ∧
    ((customExtract [Selector.tagSel (chars "p")] [Selector.classSel (chars "ad")]
        OutputMode.html
        [⟨chars "p", [], chars "<p>one</p>", chars "one"⟩,
         ⟨chars "p", [chars "ad"], chars "<p class=\"ad\">buy</p>", chars "buy"⟩,
         ⟨chars "p", [], chars "<p>two</p>", chars "two"⟩,
         ⟨chars "p", [], chars "<p>three</p>", chars "three"⟩]).2 =
      chars " <p>one</p>") ∧
    ¬ chars "<p>two</p>" <:+:
      (customExtract [Selector.tagSel (chars "p")] [Selector.classSel (chars "ad")]
        OutputMode.html
        [⟨chars "p", [], chars "<p>one</p>", chars "one"⟩,
         ⟨chars "p", [chars "ad"], chars "<p class=\"ad\">buy</p>", chars "buy"⟩,
         ⟨chars "p", [], chars "<p>two</p>", chars "two"⟩,
         ⟨chars "p", [], chars "<p>three</p>", chars "three"⟩]).2 := by
  refine ⟨?_, by decide, by decide⟩
  intro incl discard doc
  have hkept : (removeSel discard doc).filter (anyMatches incl) =
      doc.filter fun e => anyMatches incl e && !anyMatches discard e := by
    rw [removeSel, List.filter_filter]
  have hdrained : ∀ sel : Dom, (∀ e ∈ sel, anyMatches incl e = true) →
      trySelect incl (removeSel incl sel) = none := by
    intro sel hall
    have hempty : removeSel incl sel = [] := by
      rw [removeSel]
      apply List.filter_eq_nil_iff.mpr
      intro e he
      simp [hall e he]
    rw [hempty]
    rfl
  have hstep : ∀ fuel content, drain incl false (fuel + 1)
      (trySelect incl (removeSel discard doc)) content =
      if (doc.filter fun e => anyMatches incl e && !anyMatches discard e).isEmpty
      then content
      else content ++ chars " " ++
        htmlOf (doc.filter fun e => anyMatches incl e && !anyMatches discard e) := by
    intro fuel content
    rw [trySelect, hkept]
    by_cases hemp : (doc.filter fun e => anyMatches incl e && !anyMatches discard e).isEmpty
    · simp only [hemp, if_pos, if_true]
      rfl
    · simp only [hemp, if_false, Bool.false_eq_true]
      rw [drain]
      have hall : ∀ e ∈ doc.filter fun e => anyMatches incl e && !anyMatches discard e,
          anyMatches incl e = true := by
        intro e he
        have := List.mem_filter.mp he
        exact (Bool.and_eq_true _ _ ▸ this.2).1
      rw [hdrained _ hall]
      cases fuel <;> rfl
  show drain incl (OutputMode.html == OutputMode.text) (doc.length + 1)
      (trySelect incl (removeSel discard doc)) [] = _
  rw [show (OutputMode.html == OutputMode.text) = false from rfl]
  rw [hstep doc.length []]
  by_cases hemp : (doc.filter fun e => anyMatches incl e && !anyMatches discard e).isEmpty <;>
    simp [hemp]

/-! ### Claims about document assembly -/

/-- Claim C4: document assembly is deterministic — each article's
chapter filename is derived solely from its index in the original flat
article list (`chapter_i.xhtml`, independent of grouping), the master
TOC (and the per-source TOC list) enumerates exactly the distinct source
labels in lexicographically sorted order, and each per-source TOC lists
that source's articles by strictly increasing original flat index, i.e.
in their original relative input order. -/
theorem claim_C4_deterministic_assembly (articles : List Article) (genDate : Str) :
    (((assembleEpub articles genDate).chapters.map fun c => c.1) =
      (List.range articles.length).map chapterFilename) ∧
    (sortedSources articles).Pairwise LexLe ∧
    (∀ s, s ∈ sortedSources articles ↔ s ∈ articles.map fun a => a.source) ∧
    (sortedSources articles).Nodup ∧
    (((assembleEpub articles genDate).sourceTocs.map fun t => t.1) =
      (sortedSources articles).map sourceTocFilename) ∧
    (∀ s, ((groupIndexed articles s).map Prod.fst).Pairwise (· < ·)) ∧
    (∀ s i, i ∈ (groupIndexed articles s).map Prod.fst ↔
      ∃ a, articles[i]? = some a ∧ a.source = s) := by
  refine ⟨?_, ?_, ?_, ?_, ?_, ?_, ?_⟩
  · show ((articles.enum.map fun p => (chapterFilename p.1, p.2.title, chapterHtml p.2)).map
        fun c => c.1) = _
    rw [List.map_map]
    have : ((fun c : Str × Str × Str => c.1) ∘
        fun p : Nat × Article => (chapterFilename p.1, p.2.title, chapterHtml p.2)) =
        chapterFilename ∘ Prod.fst := rfl
    rw [this, ← List.map_map, List.enum_map_fst]
  · haveI : IsTotal Str LexLe := ⟨lexLe_total⟩
    haveI : IsTrans Str LexLe := ⟨lexLe_trans⟩
    exact List.sorted_insertionSort LexLe (distinctSources articles)
  · intro s
    rw [sortedSources, List.mem_insertionSort, distinctSources, List.mem_dedup]
  · rw [sortedSources]
    exact (List.perm_insertionSort LexLe (distinctSources articles)).nodup_iff.mpr
      (List.nodup_dedup _)
  · show (((sortedSources articles).map fun s =>
        (sourceTocFilename s, sourceTocHtml articles s)).map fun t => t.1) = _
    rw [List.map_map]
    rfl
  · intro s
    rw [List.pairwise_map]
    apply List.Pairwise.sublist (List.filter_sublist articles.enum)
    have := List.pairwise_lt_range articles.length
    rw [← List.enum_map_fst, List.pairwise_map] at this
    exact this
  · intro s i
    constructor
    · intro h
      rcases List.mem_map.mp h with ⟨⟨j, a⟩, hmem, hj⟩
      rcases List.mem_filter.mp hmem with ⟨henum, hsrc⟩
      refine ⟨a, ?_, ?_⟩
      · cases hj
        exact List.mem_enum_iff_getElem?.mp henum
      · exact beq_iff_eq.mp (by simpa using hsrc)
    · rintro ⟨a, hget, hsrc⟩
      apply List.mem_map.mpr
      refine ⟨(i, a), ?_, rfl⟩
      apply List.mem_filter.mpr
      refine ⟨List.mem_enum_iff_getElem?.mpr hget, by simpa using hsrc⟩

theorem claim_C4_witness :
    ((assembleEpub
        [⟨chars "B", chars "t0", chars "l0", chars "c0", chars "d0"⟩,
         ⟨chars "A", chars "t1", chars "l1", chars "c1", chars "d1"⟩,
         ⟨chars "B", chars "t2", chars "l2", chars "c2", chars "d2"⟩]
        (chars "2025-01-01")).chapters.map fun c => c.1) =
      [chars "chapter_0.xhtml", chars "chapter_1.xhtml", chars "chapter_2.xhtml"] ∧
    sortedSources
        [⟨chars "B", chars "t0", chars "l0", chars "c0", chars "d0"⟩,
         ⟨chars "A", chars "t1", chars "l1", chars "c1", chars "d1"⟩,
         ⟨chars "B", chars "t2", chars "l2", chars "c2", chars "d2"⟩] =
      [chars "A", chars "B"] ∧
    ((groupIndexed
        [⟨chars "B", chars "t0", chars "l0", chars "c0", chars "d0"⟩,
         ⟨chars "A", chars "t1", chars "l1", chars "c1", chars "d1"⟩,
         ⟨chars "B", chars "t2", chars "l2", chars "c2", chars "d2"⟩]
        (chars "B")).map Prod.fst) = [0, 2] := by
  refine ⟨?_, by decide, by decide⟩
  rw [(claim_C4_deterministic_assembly _ _).1]
  decide

/-- The run of `generate_epub_data` succeeds only with the fully assembled
document. -/
theorem generate_epub_data_ok (articles : List Article) (genDate : Str)
    (opOk : Nat → Bool) (doc : EpubDoc)
    (h : generate_epub_data articles genDate opOk = Except.ok doc) :
    doc = assembleEpub articles genDate := by
  unfold generate_epub_data at h
  cases hf : (List.range (epubOpCount articles)).find? (fun k => !opOk k) with
  | none =>
    rw [hf] at h
    exact (Except.ok.injEq _ _ ▸ h).symm
  | some k =>
    rw [hf] at h
    cases h

/-- Any write event in the trace of `generate_epub` carries the complete
assembled document at the final output path, and only with an overall
success result. -/
theorem generate_epub_write_inv (articles : List Article) (genDate : Str)
    (opOk : Nat → Bool) (mkdirOk writeOk : Bool) (outputDir stamp : Str)
    (p : Str) (d : EpubDoc)
    (hmem : FsEvent.writeE p d ∈
      (generate_epub articles genDate opOk mkdirOk writeOk outputDir stamp).2) :
    generate_epub_data articles genDate opOk = Except.ok d ∧
      d = assembleEpub articles genDate ∧
      p = epubOutputPath outputDir stamp ∧
      (generate_epub articles genDate opOk mkdirOk writeOk outputDir stamp).1 =
        Except.ok () := by
  unfold generate_epub at hmem ⊢
  cases hdata : generate_epub_data articles genDate opOk with
  | error e =>
    simp only [hdata] at hmem
    cases hmem
  | ok doc =>
    simp only [hdata] at hmem ⊢
    cases hmk : mkdirOk with
    | false =>
      simp only [hmk, Bool.not_false, if_true] at hmem
      rcases List.mem_singleton.mp hmem with h
      cases h
    | true =>
      simp only [hmk, Bool.not_true, Bool.false_eq_true, if_false] at hmem ⊢
      cases hw : writeOk with
      | false =>
        simp only [hw, Bool.false_eq_true, if_false] at hmem
        rcases List.mem_singleton.mp hmem with h
        cases h
      | true =>
        simp only [hw, if_true] at hmem ⊢
        rcases List.mem_cons.mp hmem with h | h
        · cases h
        · rcases List.mem_singleton.mp h with h'
          injection h' with h1 h2
          subst h1
          subst h2
          refine ⟨rfl, generate_epub_data_ok articles genDate opOk d hdata, rfl, ?_⟩
          trivial

/-- Claim C7: a generation request is atomic at the output path — every
write that ever appears in the filesystem trace carries the complete
assembled document at the final output path with an overall success
result, and whenever generation fails (builder construction, metadata,
content insertion, serialization, directory creation or the write
itself), no artifact is written to the final destination path. -/
theorem claim_C7_atomic_generation :
    (∀ (articles : List Article) (genDate : Str) (opOk : Nat → Bool)
       (mkdirOk writeOk : Bool) (outputDir stamp : Str) (p : Str) (d : EpubDoc),
      FsEvent.writeE p d ∈
          (generate_epub articles genDate opOk mkdirOk writeOk outputDir stamp).2 →
      generate_epub_data articles genDate opOk = Except.ok d ∧
        d = assembleEpub articles genDate ∧
        p = epubOutputPath outputDir stamp ∧
        (generate_epub articles genDate opOk mkdirOk writeOk outputDir stamp).1 =
          Except.ok ()) ∧
    (∀ (articles : List Article) (genDate : Str) (opOk : Nat → Bool)
       (mkdirOk writeOk : Bool) (outputDir stamp : Str) (e : Str),
      (generate_epub articles genDate opOk mkdirOk writeOk outputDir stamp).1 =
        Except.error e →
      ∀ (p : Str) (d : EpubDoc),
        FsEvent.writeE p d ∉
          (generate_epub articles genDate opOk mkdirOk writeOk outputDir stamp).2) := by
  constructor
  · intro articles genDate opOk mkdirOk writeOk outputDir stamp p d hmem
    exact generate_epub_write_inv articles genDate opOk mkdirOk writeOk outputDir stamp
      p d hmem
  · intro articles genDate opOk mkdirOk writeOk outputDir stamp e herr p d hmem
    have := generate_epub_write_inv articles genDate opOk mkdirOk writeOk outputDir stamp
      p d hmem
    rw [this.2.2.2] at herr
    cases herr

theorem claim_C7_witness :
    FsEvent.writeE (chars "x") (assembleEpub [] (chars "g")) ∉
      (generate_epub [] (chars "g") (fun _ => false) true true (chars "out")
        (chars "20250101_000000")).2 :=
  claim_C7_atomic_generation.2 [] (chars "g") (fun _ => false) true true (chars "out")
    (chars "20250101_000000") (chars "builder operation failed") rfl (chars "x")
    (assembleEpub [] (chars "g"))
